import Mathlib

/-!
Shallow embedding of go-www's request builder (src/request.go).

The repository's single source file appears in two closely related revisions;
where they differ (the error field of the short-circuit response in Do, the
capitalisation of the ErrorEmptyListValues message, and how AttachFiles closes
its readers) we embed the first revision and note the difference in comments.

Modelling conventions:
- Byte strings (request bodies, query strings) are List Char; each Char stands
  for one byte (validity side conditions require toNat < 256 where escaping
  matters).
- Go's io.Reader values are modelled by GoReader: a reader yields its content
  and then, when readFails is set, an error; *os.File is the file constructor.
- multipart.NewWriter draws a random boundary; the embedding passes the
  boundary as an explicit parameter.
- Resource closing (closeReader, defer) has no observable effect on the
  builder state and is not modelled.
- A Go map is embedded as an association list enumerating one iteration order
  (for url.Values.Encode, the key-sorted order Go uses).
-/

namespace GoWww

/-- Errors are values of Go's error interface; only the message is observable
in this repository. -/
structure GoError where
  msg : String
deriving DecidableEq, Repr

/-- Sentinel from src/request.go line 17 (first revision; the second revision
capitalises the first word). -/
def errorEmptyListValues : GoError :=
  ⟨"an empty list of values is passed to create multipart content"⟩

/-- Error built at src/request.go line 251. -/
def errNotReader : GoError := ⟨"value is not an interface io.Reader"⟩

/-- Error built at src/request.go line 258. -/
def errNotString : GoError := ⟨"value is not a string"⟩

/-- Stands for whatever error a failing io.Copy returns. -/
def errCopy : GoError := ⟨"io: copy error"⟩

/-- Stands for the error json.Marshal returns on an unsupported value. -/
def errJsonUnsupported : GoError := ⟨"json: unsupported type"⟩

/-- An io.Reader: either an *os.File (carrying its path) or any other reader.
Reading yields content; when readFails is set the read ends in an error, so
io.Copy of this reader writes content and then reports the error. -/
inductive GoReader where
  | file (name : String) (content : List Char) (readFails : Bool)
  | plain (content : List Char) (readFails : Bool)
deriving DecidableEq, Repr

def GoReader.content : GoReader → List Char
  | .file _ c _ => c
  | .plain c _ => c

def GoReader.readFails : GoReader → Bool
  | .file _ _ b => b
  | .plain _ b => b

/-- A dynamically typed Go value as it can appear in the []interface lists
given to AttachFiles: an io.Reader, a string, or anything else. -/
inductive GoValue where
  | reader (r : GoReader)
  | str (s : String)
  | other
deriving DecidableEq, Repr

/-- One part of a multipart envelope. fileName is none for plain form fields
(writer.CreateFormField); contentType is the empty string when absent. -/
structure Part where
  field : String
  fileName : Option String
  contentType : String
  content : List Char
deriving DecidableEq, Repr

/-- The builder's body reader: WithFile keeps the caller's reader verbatim,
form/JSON bodies are byte readers over an encoded document, and the
attach operations produce a buffer filled by a multipart writer. -/
inductive Body where
  | fromReader (r : GoReader)
  | bytes (data : List Char)
  | multipart (boundary : String) (parts : List Part)
deriving DecidableEq, Repr

structure Cookie where
  name : String
  value : String
deriving DecidableEq, Repr

/-- http.Header: map from header name to list of values, embedded as an
association list. Go canonicalises header keys on Set; the claims under
verification do not depend on canonicalisation, so it is elided. -/
abbrev Header := List (String × List String)

/-- Header.Set: replaces any existing values of the key with the single
given value. -/
def headerSet (h : Header) (k : String) (v : String) : Header :=
  if h.any (fun kv => kv.1 = k) then
    h.map (fun kv => if kv.1 = k then (k, [v]) else kv)
  else h ++ [(k, [v])]

/-- Header lookup (observable side of the header map). -/
def headerGet (h : Header) (k : String) : Option (List String) :=
  (h.find? (fun kv => kv.1 = k)).map Prod.snd

/-- The concrete http.Request built by prepareRequest, restricted to the
fields this repository touches. Go's URL-syntax validation in
http.NewRequest is stdlib behaviour the claims do not depend on; the
embedding treats request construction as total. -/
structure HttpReq where
  method : String
  url : String
  rawQuery : List Char
  header : Header
  cookies : List Cookie
deriving DecidableEq, Repr

/-- The transport response handed back by the injected client; opaque here. -/
structure HttpResp where
  status : Nat
deriving DecidableEq, Repr

/-- Response wrapper (resp, err, content), as literally constructed in Do. -/
structure Response where
  resp : Option HttpResp
  err : Option GoError
  content : Option (List Char)
deriving DecidableEq, Repr

/-- The injected client's one operation: send(request) -> (response, error). -/
abbrev Client := HttpReq → Option HttpResp × Option GoError

/-- The Request builder struct (src/request.go lines 19-27). -/
structure Request where
  request : Option HttpReq
  err : Option GoError
  body : Option Body
  params : List Char
  mime : String
  cookies : List Cookie
deriving DecidableEq, Repr

/-- NewRequest: zero-valued builder (the client collaborator is passed to Do
explicitly in this embedding). -/
def NewRequest : Request :=
  { request := none, err := none, body := none, params := [], mime := "", cookies := [] }

/-!
URL query model (net/url): QueryEscape, Values.Encode, ParseQuery.
url.Values is map from string to string slice; the embedding enumerates it as
an association list (Encode iterates keys in sorted order, so the list stands
for that sorted enumeration).
-/

abbrev Values := List (List Char × List (List Char))

/-- Characters QueryEscape leaves alone: alphanumerics and the four marks. -/
def isUnreserved (c : Char) : Bool :=
  (('A' ≤ c && c ≤ 'Z') || ('a' ≤ c && c ≤ 'z') || ('0' ≤ c && c ≤ '9')
    || c = '-' || c = '_' || c = '.' || c = '~')

def hexDigitUpper (n : Nat) : Char :=
  if n < 10 then Char.ofNat (48 + n) else Char.ofNat (55 + n)

/-- QueryEscape of one byte: kept, space to plus, else percent-encoded. -/
def escapeChar (c : Char) : List Char :=
  if isUnreserved c then [c]
  else if c = ' ' then ['+']
  else ['%', hexDigitUpper (c.toNat / 16), hexDigitUpper (c.toNat % 16)]

def queryEscape (s : List Char) : List Char := (s.map escapeChar).flatten

/-- Values.Encode: key=value pairs joined by ampersands, both sides escaped;
a key with an empty value slice contributes nothing. -/
def urlValuesEncode (q : Values) : List Char :=
  List.intercalate ['&']
    ((q.map (fun kv => kv.2.map (fun v => queryEscape kv.1 ++ '=' :: queryEscape v))).flatten)

def isHexDigit (c : Char) : Bool :=
  ('0' ≤ c && c ≤ '9') || ('a' ≤ c && c ≤ 'f') || ('A' ≤ c && c ≤ 'F')

def unhex (c : Char) : Nat :=
  if '0' ≤ c && c ≤ '9' then c.toNat - 48
  else if 'a' ≤ c && c ≤ 'f' then c.toNat - 87
  else c.toNat - 55

/-- QueryUnescape: inverts percent-encoding, plus becomes space, fails on a
malformed percent escape. -/
def queryUnescape : List Char → Option (List Char)
  | [] => some []
  | c :: rest =>
    if c = '%' then
      match rest with
      | h1 :: h2 :: rest2 =>
        if isHexDigit h1 && isHexDigit h2 then
          (queryUnescape rest2).map (fun t => Char.ofNat (16 * unhex h1 + unhex h2) :: t)
        else none
      | _ => none
    else (queryUnescape rest).map (fun t => (if c = '+' then ' ' else c) :: t)

/-- Cut at the first occurrence of sep (strings.Cut); the second component is
empty when sep does not occur. -/
def cutChar (sep : Char) : List Char → List Char × List Char
  | [] => ([], [])
  | c :: rest =>
    if c = sep then ([], rest)
    else
      let p := cutChar sep rest
      (c :: p.1, p.2)

/-- Appends a value under a key, creating the key on first sight
(m[key] = append(m[key], value)). -/
def addValue (m : Values) (k v : List Char) : Values :=
  if m.any (fun kv => kv.1 = k) then
    m.map (fun kv => if kv.1 = k then (k, kv.2 ++ [v]) else kv)
  else m ++ [(k, [v])]

/-- ParseQuery keeps only the first error it meets. -/
def firstErr (e : Option GoError) (e2 : GoError) : Option GoError :=
  match e with
  | some x => some x
  | none => some e2

/-- One piece of ParseQuery's loop body: reject semicolons, skip empty
pieces, cut at the first equals sign, unescape both sides, accumulate. -/
def parseQueryStep (acc : Values × Option GoError) (piece : List Char) :
    Values × Option GoError :=
  if piece.contains ';' then (acc.1, firstErr acc.2 ⟨"invalid semicolon separator in query"⟩)
  else if piece = [] then acc
  else
    let kv := cutChar '=' piece
    match queryUnescape kv.1 with
    | none => (acc.1, firstErr acc.2 ⟨"invalid URL escape"⟩)
    | some k =>
      match queryUnescape kv.2 with
      | none => (acc.1, firstErr acc.2 ⟨"invalid URL escape"⟩)
      | some v => (addValue acc.1 k v, acc.2)

/-- url.ParseQuery: split on ampersands and fold the loop body. -/
def parseQuery (s : List Char) : Values × Option GoError :=
  (s.splitOn '&').foldl parseQueryStep ([], none)

/-- Every character stands for one byte. -/
abbrev byteOk (s : List Char) : Prop := ∀ c ∈ s, c.toNat < 256

/-- A well-formed multi-map for the round-trip: it enumerates a Go map, so
its keys are pairwise distinct (Encode emits them in sorted order); every
key maps to at least one value; keys and values are byte strings. -/
abbrev validQuery (q : Values) : Prop :=
  (q.map Prod.fst).Nodup ∧
  ∀ kv ∈ q, byteOk kv.1 ∧ kv.2 ≠ [] ∧ ∀ v ∈ kv.2, byteOk v

/-!
JSON model (encoding/json restricted to the values this builder can receive):
a Go value is null, bool, integer, string, slice, string-keyed map, or an
unsupported kind (func, chan, complex) on which json.Marshal errors. Maps are
embedded as association lists in Go's (sorted-key) emission order. Marshal's
HTML and control-character escaping is elided; the escaping kept (quote and
backslash) is what the round-trip below needs to stay injective.
-/

def lbrace : Char := Char.ofNat 123
def rbrace : Char := Char.ofNat 125

inductive JVal where
  | null
  | bool (b : Bool)
  | num (n : Int)
  | str (s : List Char)
  | arr (elems : List JVal)
  | obj (fields : List (List Char × JVal))
  | unsupported

mutual

def JVal.serializable : JVal → Bool
  | .null => true
  | .bool _ => true
  | .num _ => true
  | .str _ => true
  | .arr es => serializableList es
  | .obj fs => serializableFields fs
  | .unsupported => false

def serializableList : List JVal → Bool
  | [] => true
  | e :: es => e.serializable && serializableList es

def serializableFields : List (List Char × JVal) → Bool
  | [] => true
  | kv :: fs => kv.2.serializable && serializableFields fs

end

/-- Decimal digits of a natural number, most significant first. -/
def renderNat (n : Nat) : List Char :=
  if n < 10 then [Char.ofNat (48 + n)]
  else renderNat (n / 10) ++ [Char.ofNat (48 + n % 10)]
termination_by n
decreasing_by omega

def renderInt (n : Int) : List Char :=
  if n < 0 then '-' :: renderNat n.natAbs else renderNat n.toNat

def escJChar (c : Char) : List Char :=
  if c = '"' ∨ c = '\\' then ['\\', c] else [c]

def escapeJson (s : List Char) : List Char := (s.map escJChar).flatten

def nullLit : List Char := ['n', 'u', 'l', 'l']

def trueLit : List Char := ['t', 'r', 'u', 'e']

def falseLit : List Char := ['f', 'a', 'l', 's', 'e']

mutual

def JVal.render : JVal → List Char
  | .null => nullLit
  | .bool true => trueLit
  | .bool false => falseLit
  | .num n => renderInt n
  | .str s => '"' :: escapeJson s ++ ['"']
  | .arr es => '[' :: renderElems es ++ [']']
  | .obj fs => lbrace :: renderFields fs ++ [rbrace]
  | .unsupported => []

def renderElems : List JVal → List Char
  | [] => []
  | [e] => e.render
  | e :: es => e.render ++ ',' :: renderElems es

def renderFields : List (List Char × JVal) → List Char
  | [] => []
  | [kv] => renderField kv
  | kv :: fs => renderField kv ++ ',' :: renderFields fs

def renderField (kv : List Char × JVal) : List Char :=
  '"' :: escapeJson kv.1 ++ '"' :: ':' :: kv.2.render

end

/-- json.Marshal: errors exactly on values containing an unsupported kind. -/
def jsonMarshal (d : JVal) : Option (List Char) :=
  if d.serializable then some d.render else none

/-- Body of a JSON string literal: content up to the closing quote, undoing
the backslash escapes; the remainder of the input is returned. -/
def parseJStr : List Char → Option (List Char × List Char)
  | [] => none
  | c :: rest =>
    if c = '"' then some ([], rest)
    else if c = '\\' then
      match rest with
      | [] => none
      | e :: rest2 =>
        if e = '"' ∨ e = '\\' then (parseJStr rest2).map (fun p => (e :: p.1, p.2))
        else none
    else (parseJStr rest).map (fun p => (c :: p.1, p.2))

def isDigitCh (c : Char) : Bool := '0' ≤ c && c ≤ '9'

def digitsVal (ds : List Char) : Nat := ds.foldl (fun a c => 10 * a + (c.toNat - 48)) 0

/-- A maximal nonempty run of digits and its value. -/
def parseNatNum (s : List Char) : Option (Nat × List Char) :=
  let ds := s.takeWhile isDigitCh
  if ds = [] then none else some (digitsVal ds, s.dropWhile isDigitCh)

def parseIntNum : List Char → Option (Int × List Char)
  | [] => none
  | c :: rest =>
    if c = '-' then (parseNatNum rest).map (fun p => (-(p.1 : Int), p.2))
    else (parseNatNum (c :: rest)).map (fun p => ((p.1 : Int), p.2))

/-- Consume an exact literal. -/
def dropLit : List Char → List Char → Option (List Char)
  | [], s => some s
  | _ :: _, [] => none
  | c :: cs, x :: xs => if x = c then dropLit cs xs else none

mutual

/-- Fuel-indexed JSON value parser; the fuel only bounds nesting and list
length, it is not part of the grammar. -/
def parseVal : Nat → List Char → Option (JVal × List Char)
  | 0, _ => none
  | _ + 1, [] => none
  | fuel + 1, c :: rest =>
    if c = '"' then (parseJStr rest).map (fun p => (JVal.str p.1, p.2))
    else if c = '[' then
      match rest with
      | [] => none
      | x :: r2 =>
        if x = ']' then some (JVal.arr [], r2)
        else (parseElems fuel (x :: r2)).map (fun p => (JVal.arr p.1, p.2))
    else if c = lbrace then
      match rest with
      | [] => none
      | x :: r2 =>
        if x = rbrace then some (JVal.obj [], r2)
        else (parseFields fuel (x :: r2)).map (fun p => (JVal.obj p.1, p.2))
    else if c = 't' then (dropLit ['r', 'u', 'e'] rest).map (fun r => (JVal.bool true, r))
    else if c = 'f' then (dropLit ['a', 'l', 's', 'e'] rest).map (fun r => (JVal.bool false, r))
    else if c = 'n' then (dropLit ['u', 'l', 'l'] rest).map (fun r => (JVal.null, r))
    else (parseIntNum (c :: rest)).map (fun p => (JVal.num p.1, p.2))

/-- One or more comma-separated values closed by a right bracket. -/
def parseElems : Nat → List Char → Option (List JVal × List Char)
  | 0, _ => none
  | fuel + 1, s =>
    match parseVal fuel s with
    | none => none
    | some (v, r) =>
      match r with
      | [] => none
      | c :: r2 =>
        if c = ',' then (parseElems fuel r2).map (fun p => (v :: p.1, p.2))
        else if c = ']' then some ([v], r2)
        else none

/-- One or more comma-separated string-colon-value fields closed by a right
brace. -/
def parseFields : Nat → List Char → Option (List (List Char × JVal) × List Char)
  | 0, _ => none
  | fuel + 1, s =>
    match s with
    | [] => none
    | c :: rest =>
      if c = '"' then
        match parseJStr rest with
        | none => none
        | some (k, r) =>
          match r with
          | [] => none
          | c2 :: r2 =>
            if c2 = ':' then
              match parseVal fuel r2 with
              | none => none
              | some (v, r3) =>
                match r3 with
                | [] => none
                | c3 :: r4 =>
                  if c3 = ',' then (parseFields fuel r4).map (fun p => ((k, v) :: p.1, p.2))
                  else if c3 = rbrace then some ([(k, v)], r4)
                  else none
            else none
      else none

end

/-- The decoder: parse with ample fuel and require the input consumed. -/
def jsonParse (s : List Char) : Option JVal :=
  match parseVal (s.length + 1) s with
  | some (v, []) => some v
  | _ => none

/-- Character shapes that can legally follow a rendered JSON value inside a
bigger document: nothing, a separating comma, or a closing bracket or
brace. -/
def delimOk : List Char → Prop
  | [] => True
  | c :: _ => c = ',' ∨ c = ']' ∨ c = rbrace

mutual

/-- Fuel sufficient for parseVal to reparse a rendered value. -/
def JVal.fuelSize : JVal → Nat
  | .null => 1
  | .bool _ => 1
  | .num _ => 1
  | .str _ => 1
  | .arr es => 1 + fuelElems es
  | .obj fs => 1 + fuelFields fs
  | .unsupported => 1

/-- Fuel sufficient for parseElems to reparse rendered elements. -/
def fuelElems : List JVal → Nat
  | [] => 0
  | e :: es => 1 + max (JVal.fuelSize e) (fuelElems es)

/-- Fuel sufficient for parseFields to reparse rendered fields. -/
def fuelFields : List (List Char × JVal) → Nat
  | [] => 0
  | kv :: fs => 1 + max (JVal.fuelSize kv.2) (fuelFields fs)

end

/-!
Multipart model (mime/multipart writer plus the repository's CreateFormFile
helper, which is not under src/).
-/

/-- Modelled from the spec: CreateFormFile is repository code outside src/;
the spec's envelope writer collaborator says it starts a file part with the
given field name, file name and content type. The variadic content type is a
list, empty string when absent. -/
def CreateFormFile (field fileName : String) (contentType : List String)
    (content : List Char) : Part :=
  { field := field, fileName := some fileName, contentType := contentType.headD "",
    content := content }

/-- writer.CreateFormField: a plain form field part, no file name and no
content type. -/
def createFormField (field : String) (content : List Char) : Part :=
  { field := field, fileName := none, contentType := "", content := content }

/-- writer.FormDataContentType (generated boundaries are alphanumeric, so
Go's quoting branch is not taken). -/
def formDataContentType (boundary : String) : String :=
  "multipart/form-data; boundary=" ++ boundary

def crlf : List Char := [Char.ofNat 13, Char.ofNat 10]

def dashdash : List Char := ['-', '-']

/-- Header block of one part as the writer emits it. -/
def partHeaderBytes (p : Part) : List Char :=
  ("Content-Disposition: form-data; name=" ++ "\"" ++ p.field ++ "\"").toList
    ++ (match p.fileName with
        | some fn => ("; filename=" ++ "\"" ++ fn ++ "\"").toList
        | none => [])
    ++ crlf
    ++ (if p.contentType ≠ "" then ("Content-Type: " ++ p.contentType).toList ++ crlf else [])

def mpSerializeParts (boundary : String) : List Part → Bool → List Char
  | [], _ => []
  | p :: ps, isFirst =>
    (if isFirst then [] else crlf) ++ dashdash ++ boundary.toList ++ crlf
      ++ partHeaderBytes p ++ crlf ++ p.content ++ mpSerializeParts boundary ps false

/-- Bytes of the finished envelope (writer.Close appends the closing
boundary line). -/
def mpSerialize (boundary : String) (parts : List Part) : List Char :=
  mpSerializeParts boundary parts true ++ crlf ++ dashdash ++ boundary.toList
    ++ dashdash ++ crlf

/-- filepath.Base on a unix path. -/
def filepathBase (p : String) : String :=
  if p = "" then "."
  else
    let rev := p.toList.reverse
    let rev2 := rev.dropWhile (fun c => c = '/')
    if rev2 = [] then "/"
    else String.mk (rev2.takeWhile (fun c => c ≠ '/')).reverse

/-!
Builder operations (src/request.go lines 55-293).
-/

def Request.Error (r : Request) : Option GoError := r.err

def SetCookies (cookies : List Cookie) (r : Request) : Request :=
  { r with cookies := cookies }

def WithQuery (params : Values) (r : Request) : Request :=
  { r with params := urlValuesEncode params }

def WithForm (data : Values) (r : Request) : Request :=
  { r with mime := "application/x-www-form-urlencoded",
           body := some (.bytes (urlValuesEncode data)) }

def With (params data : Values) (r : Request) : Request :=
  { r with params := urlValuesEncode params,
           mime := "application/x-www-form-urlencoded",
           body := some (.bytes (urlValuesEncode data)) }

def Json (data : JVal) (r : Request) : Request :=
  match jsonMarshal data with
  | none => { r with err := some errJsonUnsupported }
  | some bs => { r with mime := "application/json", body := some (.bytes bs) }

def JSON (data : JVal) (r : Request) : Request := Json data r

def WithFile (reader : GoReader) (r : Request) : Request :=
  { r with mime := "binary/octet-stream", body := some (.fromReader reader) }

/-- AttachFile (src/request.go lines 195-229). In the non-file branch the
source does r.err = err while the local err still holds its zero value, so
the recorded error is nil. -/
def AttachFile (boundary : String) (reader : GoReader) (contentType : List String)
    (r : Request) : Request :=
  match reader with
  | .plain _ _ => { r with err := none }
  | .file nm content fails =>
    let p := CreateFormFile "file" (filepathBase nm) contentType content
    if fails then { r with err := some errCopy }
    else { r with mime := formDataContentType boundary,
                  body := some (.multipart boundary [p]) }

/-- The part one type-correct field contributes: a file reader goes through
CreateFormFile with the current value of the contentType variable, any other
reader through CreateFormField. -/
def partOfReader (field : String) (ct : String) (rd : GoReader) : Part :=
  match rd with
  | .file nm content _ => CreateFormFile field (filepathBase nm) [ct] content
  | .plain content _ => createFormField field content

/-- Part creation and io.Copy for one field whose value passed the type
checks; ct is the loop-carried contentType variable, returned unchanged. -/
def procCopy (parts : List Part) (e : Option GoError) (ct : String)
    (field : String) (rd : GoReader) : List Part × Option GoError × String :=
  (parts ++ [partOfReader field ct rd], if rd.readFails then some errCopy else e, ct)

/-- Body of one AttachFiles loop iteration for a nonempty value list
(values[0] on top, the optional values[1] in vs). A failed string assertion
leaves the zero value in the contentType variable; a failed reader assertion
does not reach the contentType assignment. -/
def procField (parts : List Part) (e : Option GoError) (ct : String)
    (field : String) (v : GoValue) (vs : List GoValue) : List Part × Option GoError × String :=
  match v with
  | .reader rd =>
    match vs with
    | [] => procCopy parts e ct field rd
    | v1 :: _ =>
      match v1 with
      | .str s => procCopy parts e s field rd
      | _ => (parts, some errNotString, "")
  | _ => (parts, some errNotReader, ct)

/-- The AttachFiles range loop. none signals the early return taken on an
empty value list; otherwise the accumulated parts and the final recorded
error are returned. -/
def attachLoop : List (String × List GoValue) → List Part → Option GoError → String →
    Option (List Part × Option GoError)
  | [], parts, e, _ => some (parts, e)
  | (field, values) :: rest, parts, e, ct =>
    match values with
    | [] => none
    | v :: vs =>
      let st := procField parts e ct field v vs
      attachLoop rest st.1 st.2.1 st.2.2

/-- AttachFiles (src/request.go lines 231-293). The association list fixes
one iteration order of the Go map argument. -/
def AttachFiles (boundary : String) (files : List (String × List GoValue))
    (r : Request) : Request :=
  match attachLoop files [] r.err "" with
  | none => { r with err := some errorEmptyListValues }
  | some (parts, e) =>
    { r with err := e, mime := formDataContentType boundary,
             body := some (.multipart boundary parts) }

/-!
Dispatch (src/request.go lines 60-153).
-/

/-- prepareRequest. http.NewRequest's URL and method validation is stdlib
behaviour no claim depends on; construction is modelled total, so the error
assignment after it never fires. For the extra headers, only headers[0] is
read and only val[0] of each value slice is set; Go would panic on an empty
value slice (headD stands for that index, the claims restrict to nonempty
slices). -/
def prepareRequest (method uri : String) (headers : List Header) (r : Request) : Request :=
  let req0 : HttpReq :=
    { method := method, url := uri, rawQuery := [], header := [], cookies := [] }
  let req1 := { req0 with rawQuery := r.params }
  let req2 :=
    if r.mime ≠ "" then { req1 with header := headerSet req1.header "Content-Type" r.mime }
    else req1
  let req3 :=
    match headers with
    | [] => req2
    | h :: _ =>
      { req2 with header := h.foldl (fun acc kv => headerSet acc kv.1 (kv.2.headD "")) req2.header }
  { r with request := some req3 }

/-- prepareCookies: AddCookie for each pending cookie. -/
def prepareCookies (r : Request) : Request :=
  match r.request with
  | some req => { r with request := some { req with cookies := req.cookies ++ r.cookies } }
  | none => r

/-- Do (src/request.go lines 131-153, first revision: the short-circuit
response carries the recorded error; the second revision carries nil there).
The Bool result records whether the injected client's send operation was
invoked. The request = none branch is unreachable since prepareRequest
always installs a request when it records no error. -/
def Do (send : Client) (method uri : String) (headers : List Header) (r : Request) :
    Response × Request × Bool :=
  match r.err with
  | some e => ({ resp := none, err := some e, content := none }, r, false)
  | none =>
    let r1 := prepareCookies (prepareRequest method uri headers r)
    match r1.err with
    | some e => ({ resp := none, err := some e, content := none }, r1, false)
    | none =>
      match r1.request with
      | some req =>
        let res := send req
        ({ resp := res.1, err := res.2, content := none }, r1, true)
      | none => ({ resp := none, err := none, content := none }, r1, false)

/-- Convenience verb over Do. -/
def Get (send : Client) (uri : String) (headers : List Header) (r : Request) :
    Response × Request × Bool :=
  Do send "GET" uri headers r

/-!
Specification-level bookkeeping used to state the claims (derived from the
loop of AttachFiles, defined independently of its error threading).
-/

/-- The per-field errors one AttachFiles iteration records for a nonempty
value list: a first value that is no reader, a second value that is no
string, or a copy failure. -/
def entryError (values : List GoValue) : List GoError :=
  match values with
  | [] => []
  | v :: vs =>
    match v with
    | .reader rd =>
      match vs with
      | [] => if rd.readFails then [errCopy] else []
      | v1 :: _ =>
        match v1 with
        | .str _ => if rd.readFails then [errCopy] else []
        | _ => [errNotString]
    | _ => [errNotReader]

/-- All per-field errors of a field list, in field order. -/
def fieldErrors : List (String × List GoValue) → List GoError
  | [] => []
  | en :: rest => entryError en.2 ++ fieldErrors rest

/-- Whether a field contributes a part to the envelope: first value a
reader and, when present, second value a string (a copy failure still
leaves the created part in the envelope). -/
def entryHasPart (values : List GoValue) : Bool :=
  match values with
  | GoValue.reader _ :: [] => true
  | GoValue.reader _ :: GoValue.str _ :: _ => true
  | _ => false

def countParts : List (String × List GoValue) → Nat
  | [] => 0
  | en :: rest => (if entryHasPart en.2 then 1 else 0) + countParts rest

/-- Last-error-wins accumulator: the final value of a variable that starts
as e and is overwritten by each element of the list in turn. -/
def lastErrFrom (e : Option GoError) : List GoError → Option GoError
  | [] => e
  | x :: xs => lastErrFrom (some x) xs

/-- A builder holding a recorded error (obtained from the documented
empty-value-list failure of AttachFiles). -/
def erroredReq : Request := AttachFiles "b" [("f", [])] NewRequest

/-- Input for the stale content-type observation: field a supplies its own
content type, field b is a file without one. -/
def staleFiles : List (String × List GoValue) :=
  [("a", [GoValue.reader (GoReader.plain ['x'] false), GoValue.str "text/csv"]),
   ("b", [GoValue.reader (GoReader.file "b.txt" ['y'] false)])]

end GoWww

/-!
Theorems settling the claims.
-/

namespace GoWww

/-- C1 counterexample: on a builder with a recorded error, withQuery is not a
no-op (it changes the query string) and a later failing attachFiles call
overwrites the first recorded error. -/
theorem c1_sticky_error_counterexample :
    erroredReq.err = some errorEmptyListValues ∧
    WithQuery [(['a'], [['b']])] erroredReq ≠ erroredReq ∧
    (AttachFiles "b" [("g", [GoValue.other])] erroredReq).err = some errNotReader := by
  decide

/-- C1 amended: configuration calls never consult the recorded error; each
applies its effect unconditionally (and an error-recording call overwrites
the previous error); only dispatch short-circuits on a recorded error. -/
theorem c1_amended_no_error_check (r : Request) (e : GoError) (q d : Values)
    (rd : GoReader) (cs : List Cookie) (b nm : String) (content : List Char)
    (cts : List String) (send : Client) (uri : String)
    (h : r.err = some e) :
    WithQuery q r = { r with params := urlValuesEncode q } ∧
    WithForm d r = { r with mime := "application/x-www-form-urlencoded",
                            body := some (.bytes (urlValuesEncode d)) } ∧
    WithFile rd r = { r with mime := "binary/octet-stream",
                             body := some (.fromReader rd) } ∧
    SetCookies cs r = { r with cookies := cs } ∧
    (Json JVal.unsupported r).err = some errJsonUnsupported ∧
    (AttachFile b (GoReader.file nm content false) cts r).body
      = some (.multipart b [CreateFormFile "file" (filepathBase nm) cts content]) ∧
    (AttachFiles b [] r).mime = formDataContentType b ∧
    (Do send "GET" uri [] r).2.2 = false := by
  refine ⟨rfl, rfl, rfl, rfl, ?_, ?_, ?_, ?_⟩
  · simp [Json, jsonMarshal, JVal.serializable]
  · simp [AttachFile]
  · simp [AttachFiles, attachLoop]
  · simp [Do, h]

/-- C1 amended witness at concrete inputs. -/
theorem c1_amended_no_error_check_witness :
    erroredReq.err = some errorEmptyListValues ∧
    (WithQuery [] erroredReq = { erroredReq with params := urlValuesEncode [] } ∧
     WithForm [] erroredReq = { erroredReq with mime := "application/x-www-form-urlencoded", body := some (.bytes (urlValuesEncode [])) } ∧
     WithFile (GoReader.plain ['z'] false) erroredReq
       = { erroredReq with mime := "binary/octet-stream", body := some (.fromReader (GoReader.plain ['z'] false)) } ∧
     SetCookies [⟨"n", "v"⟩] erroredReq = { erroredReq with cookies := [⟨"n", "v"⟩] } ∧
     (Json JVal.unsupported erroredReq).err = some errJsonUnsupported ∧
     (AttachFile "bd" (GoReader.file "f.txt" ['q'] false) [] erroredReq).body
       = some (.multipart "bd" [CreateFormFile "file" (filepathBase "f.txt") [] ['q']]) ∧
     (AttachFiles "bd" [] erroredReq).mime = formDataContentType "bd" ∧
     (Do (fun _ => (none, none)) "GET" "http://h/x" [] erroredReq).2.2 = false) :=
  ⟨by decide,
   c1_amended_no_error_check erroredReq errorEmptyListValues [] []
     (GoReader.plain ['z'] false) [⟨"n", "v"⟩] "bd" "f.txt" ['q'] []
     (fun _ => (none, none)) "http://h/x" (by decide)⟩

/-- C2: dispatch on a builder with a recorded error returns a response shell
with no transport response and no content, leaves the builder untouched, and
never invokes the injected client's send operation. -/
theorem c2_short_circuit_dispatch (send : Client) (method uri : String)
    (headers : List Header) (r : Request) (e : GoError) (h : r.err = some e) :
    (Do send method uri headers r).1.resp = none ∧
    (Do send method uri headers r).1.content = none ∧
    (Do send method uri headers r).2.1 = r ∧
    (Do send method uri headers r).2.2 = false := by
  simp [Do, h]

/-- C2 witness at concrete inputs. -/
theorem c2_short_circuit_dispatch_witness :
    erroredReq.err = some errorEmptyListValues ∧
    ((Do (fun _ => (some ⟨200⟩, none)) "GET" "http://h/x" [] erroredReq).1.resp = none ∧
     (Do (fun _ => (some ⟨200⟩, none)) "GET" "http://h/x" [] erroredReq).1.content = none ∧
     (Do (fun _ => (some ⟨200⟩, none)) "GET" "http://h/x" [] erroredReq).2.1 = erroredReq ∧
     (Do (fun _ => (some ⟨200⟩, none)) "GET" "http://h/x" [] erroredReq).2.2 = false) :=
  ⟨by decide,
   c2_short_circuit_dispatch (fun _ => (some ⟨200⟩, none)) "GET" "http://h/x" []
     erroredReq errorEmptyListValues (by decide)⟩

/-- Reaching a field with an empty value list makes the AttachFiles loop
return early, whatever was accumulated before it. -/
theorem attachLoop_eq_none (files : List (String × List GoValue)) :
    ∀ parts e ct, (∃ en ∈ files, en.2 = ([] : List GoValue)) →
      attachLoop files parts e ct = none := by
  induction files with
  | nil =>
    rintro _ _ _ ⟨en, hmem, _⟩
    cases hmem
  | cons hd tl ih =>
    rintro parts e ct ⟨en, hmem, hempty⟩
    obtain ⟨f, values⟩ := hd
    rcases List.mem_cons.mp hmem with h1 | h1
    · subst h1
      simp only at hempty
      subst hempty
      simp [attachLoop]
    · cases values with
      | nil => simp [attachLoop]
      | cons v vs =>
        simp only [attachLoop]
        exact ih _ _ _ ⟨en, h1, hempty⟩

/-- C3: a field mapping containing an empty value list fails the whole call
with ErrorEmptyListValues and leaves body and content type untouched. -/
theorem c3_empty_value_list (b : String) (files : List (String × List GoValue))
    (r : Request) (h : ∃ en ∈ files, en.2 = ([] : List GoValue)) :
    (AttachFiles b files r).err = some errorEmptyListValues ∧
    (AttachFiles b files r).body = r.body ∧
    (AttachFiles b files r).mime = r.mime := by
  have hx := attachLoop_eq_none files [] r.err "" h
  simp [AttachFiles, hx]

/-- C3 witness at the spec's own example, attachFiles with field f mapped to
the empty list. -/
theorem c3_empty_value_list_witness :
    (∃ en ∈ [("f", ([] : List GoValue))], en.2 = ([] : List GoValue)) ∧
    ((AttachFiles "bd" [("f", [])] NewRequest).err = some errorEmptyListValues ∧
     (AttachFiles "bd" [("f", [])] NewRequest).body = NewRequest.body ∧
     (AttachFiles "bd" [("f", [])] NewRequest).mime = NewRequest.mime) :=
  ⟨⟨("f", []), by decide, rfl⟩,
   c3_empty_value_list "bd" [("f", [])] NewRequest ⟨("f", []), by decide, rfl⟩⟩

/-- Overwriting a variable by each list element in turn ends on the last
element when the list is nonempty. -/
theorem lastErrFrom_ne_nil (l : List GoError) :
    ∀ e, l ≠ [] → lastErrFrom e l = l.getLast? := by
  induction l with
  | nil => intro e h; exact absurd rfl h
  | cons x xs ih =>
    intro e _
    cases xs with
    | nil => simp [lastErrFrom]
    | cons y ys =>
      rw [lastErrFrom, ih (some x) (by simp), List.getLast?_cons_cons]

/-- Composition of the last-error accumulator over an append. -/
theorem lastErrFrom_append (l1 l2 : List GoError) :
    ∀ e, lastErrFrom e (l1 ++ l2) = lastErrFrom (lastErrFrom e l1) l2 := by
  induction l1 with
  | nil => intro e; rfl
  | cons x xs ih => intro e; exact ih (some x)

/-- When no value list is empty, the AttachFiles loop runs to the end: it
returns the accumulated parts extended by one part for every field that
passes the type checks (copy failures included), and the error variable ends
on the last per-field error, or keeps its initial value when no field
errs. -/
theorem attachLoop_no_empty (files : List (String × List GoValue)) :
    ∀ parts e ct, (∀ en ∈ files, en.2 ≠ ([] : List GoValue)) →
      ∃ newParts : List Part,
        attachLoop files parts e ct
          = some (parts ++ newParts, lastErrFrom e (fieldErrors files)) ∧
        newParts.length = countParts files := by
  induction files with
  | nil =>
    intro parts e ct _
    exact ⟨[], by simp [attachLoop, fieldErrors, lastErrFrom], by simp [countParts]⟩
  | cons hd tl ih =>
    intro parts e ct hne
    obtain ⟨f, values⟩ := hd
    have htl : ∀ en ∈ tl, en.2 ≠ ([] : List GoValue) :=
      fun en hen => hne en (List.mem_cons_of_mem _ hen)
    cases values with
    | nil => exact absurd rfl (hne (f, []) (List.mem_cons_self _ _))
    | cons v vs =>
      simp only [attachLoop, fieldErrors, lastErrFrom_append, countParts]
      cases v with
      | reader rd =>
        cases vs with
        | nil =>
          obtain ⟨np, h1, h2⟩ := ih (parts ++ [partOfReader f ct rd])
            (if rd.readFails then some errCopy else e) ct htl
          refine ⟨partOfReader f ct rd :: np, ?_, ?_⟩
          · cases hrf : rd.readFails <;>
              simp_all [procField, procCopy, entryError, lastErrFrom, List.append_assoc]
          · simp [h2, entryHasPart, Nat.add_comm]
        | cons v1 vtl =>
          cases v1 with
          | str s =>
            obtain ⟨np, h1, h2⟩ := ih (parts ++ [partOfReader f s rd])
              (if rd.readFails then some errCopy else e) s htl
            refine ⟨partOfReader f s rd :: np, ?_, ?_⟩
            · cases hrf : rd.readFails <;>
                simp_all [procField, procCopy, entryError, lastErrFrom, List.append_assoc]
            · simp [h2, entryHasPart, Nat.add_comm]
          | reader r2 =>
            obtain ⟨np, h1, h2⟩ := ih parts (some errNotString) "" htl
            refine ⟨np, ?_, ?_⟩
            · simp [procField, h1, entryError, lastErrFrom]
            · simp [h2, entryHasPart]
          | other =>
            obtain ⟨np, h1, h2⟩ := ih parts (some errNotString) "" htl
            refine ⟨np, ?_, ?_⟩
            · simp [procField, h1, entryError, lastErrFrom]
            · simp [h2, entryHasPart]
      | str s =>
        obtain ⟨np, h1, h2⟩ := ih parts (some errNotReader) ct htl
        refine ⟨np, ?_, ?_⟩
        · simp [procField, h1, entryError, lastErrFrom]
        · simp [h2, entryHasPart]
      | other =>
        obtain ⟨np, h1, h2⟩ := ih parts (some errNotReader) ct htl
        refine ⟨np, ?_, ?_⟩
        · simp [procField, h1, entryError, lastErrFrom]
        · simp [h2, entryHasPart]

/-- C4: without empty value lists the loop never aborts: every field is
processed (the envelope holds one part per type-correct field, so fields
after an erroring one are still included), and when per-field errors
occurred, the error recorded on the builder is the last one encountered. -/
theorem c4_best_effort (b : String) (files : List (String × List GoValue))
    (r : Request)
    (hne : ∀ en ∈ files, en.2 ≠ ([] : List GoValue))
    (herr : fieldErrors files ≠ []) :
    (AttachFiles b files r).err = (fieldErrors files).getLast? ∧
    ∃ parts, (AttachFiles b files r).body = some (Body.multipart b parts) ∧
      parts.length = countParts files := by
  obtain ⟨np, h1, h2⟩ := attachLoop_no_empty files [] r.err "" hne
  rw [lastErrFrom_ne_nil _ _ herr] at h1
  refine ⟨?_, np, ?_, h2⟩ <;> simp [AttachFiles, h1]

/-- C4 witness: three fields, the first failing the reader type check, the
second suffering a copy failure, the third succeeding; the last error wins
and two parts (the copy-failed one and the later successful one) are in the
envelope. -/
theorem c4_best_effort_witness :
    ((∀ en ∈ [("a", [GoValue.other]),
              ("b", [GoValue.reader (GoReader.plain ['x'] true)]),
              ("c", [GoValue.reader (GoReader.plain ['z'] false)])],
        en.2 ≠ ([] : List GoValue)) ∧
      fieldErrors [("a", [GoValue.other]),
                   ("b", [GoValue.reader (GoReader.plain ['x'] true)]),
                   ("c", [GoValue.reader (GoReader.plain ['z'] false)])] ≠ []) ∧
    ((AttachFiles "bd" [("a", [GoValue.other]),
                        ("b", [GoValue.reader (GoReader.plain ['x'] true)]),
                        ("c", [GoValue.reader (GoReader.plain ['z'] false)])] NewRequest).err
        = (fieldErrors [("a", [GoValue.other]),
                        ("b", [GoValue.reader (GoReader.plain ['x'] true)]),
                        ("c", [GoValue.reader (GoReader.plain ['z'] false)])]).getLast? ∧
     ∃ parts,
       (AttachFiles "bd" [("a", [GoValue.other]),
                          ("b", [GoValue.reader (GoReader.plain ['x'] true)]),
                          ("c", [GoValue.reader (GoReader.plain ['z'] false)])] NewRequest).body
          = some (Body.multipart "bd" parts) ∧
       parts.length = countParts [("a", [GoValue.other]),
                                  ("b", [GoValue.reader (GoReader.plain ['x'] true)]),
                                  ("c", [GoValue.reader (GoReader.plain ['z'] false)])]) :=
  ⟨⟨by decide, by decide⟩,
   c4_best_effort "bd" [("a", [GoValue.other]),
                        ("b", [GoValue.reader (GoReader.plain ['x'] true)]),
                        ("c", [GoValue.reader (GoReader.plain ['z'] false)])] NewRequest
     (by decide) (by decide)⟩

/-- C5 at the failing input: AttachFile on a reader that is not a file
records the nil zero value of the local err variable, so the builder's error
accessor returns none rather than the non-nil error the specification
requires; body and content type are left unchanged. -/
theorem c5_nil_error_recorded (b : String) (content : List Char) (fails : Bool)
    (cts : List String) (r : Request) :
    (AttachFile b (GoReader.plain content fails) cts r).err = none ∧
    (AttachFile b (GoReader.plain content fails) cts r).body = r.body ∧
    (AttachFile b (GoReader.plain content fails) cts r).mime = r.mime := by
  simp [AttachFile]

/-- C8: attachFiles on an empty field mapping records no error, installs an
empty multipart envelope whose serialisation is the bare closing boundary
line, and sets the boundary-carrying form-data content type. -/
theorem c8_empty_mapping (b : String) (r : Request) (h : r.err = none) :
    (AttachFiles b [] r).err = none ∧
    (AttachFiles b [] r).body = some (Body.multipart b []) ∧
    (AttachFiles b [] r).mime = "multipart/form-data; boundary=" ++ b ∧
    mpSerialize b [] = crlf ++ dashdash ++ b.toList ++ dashdash ++ crlf := by
  refine ⟨?_, ?_, ?_, ?_⟩ <;>
    simp [AttachFiles, attachLoop, h, formDataContentType, mpSerialize, mpSerializeParts]

/-- C8 witness at concrete inputs. -/
theorem c8_empty_mapping_witness :
    NewRequest.err = none ∧
    ((AttachFiles "xyz" [] NewRequest).err = none ∧
     (AttachFiles "xyz" [] NewRequest).body = some (Body.multipart "xyz" []) ∧
     (AttachFiles "xyz" [] NewRequest).mime = "multipart/form-data; boundary=" ++ "xyz" ∧
     mpSerialize "xyz" [] = crlf ++ dashdash ++ "xyz".toList ++ dashdash ++ crlf) :=
  ⟨rfl, c8_empty_mapping "xyz" NewRequest rfl⟩

/-- Replacing the entries of one key does not change which entry a search
for another key finds. -/
theorem find?_set_map_other (t : List (String × List String)) (k k2 v : String)
    (hne : k ≠ k2) :
    (t.map (fun kv => if kv.1 = k2 then (k2, [v]) else kv)).find?
        (fun kv => kv.1 = k)
      = t.find? (fun kv => kv.1 = k) := by
  induction t with
  | nil => rfl
  | cons kv t ih =>
    by_cases hk2 : kv.1 = k2
    · have hpk : (decide (kv.1 = k)) = false := by
        simp only [decide_eq_false_iff_not]
        exact fun hc => hne (by rw [← hc, hk2])
      have hpk2 : (decide ((k2, [v]).1 = k)) = false := by simpa using Ne.symm hne
      simp [List.find?_cons, hk2, hpk, hpk2, ih]
    · simp only [List.map_cons, if_neg hk2, List.find?_cons]
      cases hp : decide (kv.1 = k) <;> simp [hp, ih]

/-- Replacing the entries of a present key makes a search for it find the
replacement. -/
theorem find?_set_map_self (t : List (String × List String)) (k v : String) :
    t.any (fun kv => kv.1 = k) = true →
    (t.map (fun kv => if kv.1 = k then (k, [v]) else kv)).find?
        (fun kv => kv.1 = k)
      = some (k, [v]) := by
  induction t with
  | nil => simp
  | cons kv t ih =>
    intro hany
    by_cases hk : kv.1 = k
    · simp [List.find?, hk]
    · have hp : (decide (kv.1 = k)) = false := by simpa using hk
      simp only [List.map_cons, if_neg hk, List.find?_cons, hp]
      apply ih
      simpa [hp] using hany

/-- Setting a key makes lookup of that key yield exactly the one value. -/
theorem headerGet_headerSet_self (h : Header) (k v : String) :
    headerGet (headerSet h k v) k = some [v] := by
  cases hany : h.any (fun kv => kv.1 = k) with
  | false =>
    have hall := List.any_eq_false.mp hany
    simp only [headerSet, hany, Bool.false_eq_true, if_false, headerGet, List.find?_append]
    have hnone : h.find? (fun kv => decide (kv.1 = k)) = none := by
      apply List.find?_eq_none.mpr
      intro kv hkv
      simpa using hall kv hkv
    simp [hnone, List.find?]
  | true =>
    simp only [headerSet, hany, if_true, headerGet, find?_set_map_self h k v hany]
    rfl

/-- Setting one key leaves lookups of other keys unchanged. -/
theorem headerGet_headerSet_other (h : Header) (k k2 v : String) (hne : k ≠ k2) :
    headerGet (headerSet h k2 v) k = headerGet h k := by
  cases hany : h.any (fun kv => kv.1 = k2) with
  | false =>
    simp only [headerSet, hany, Bool.false_eq_true, if_false, headerGet, List.find?_append]
    have hlast : ([(k2, [v])].find? (fun kv => decide (kv.1 = k))) = none := by
      simp [List.find?, Ne.symm hne]
    cases hf : h.find? (fun kv => decide (kv.1 = k)) <;> simp [hf, hlast]
  | true =>
    simp only [headerSet, hany, if_true, headerGet, find?_set_map_other h k k2 v hne]

/-- Folding Header.Set over entries none of which has the key leaves the
lookup of that key unchanged. -/
theorem headerGet_fold_not_mem (l : List (String × List String)) :
    ∀ (base : Header) (k : String), (∀ kv ∈ l, kv.1 ≠ k) →
      headerGet (l.foldl (fun acc kv => headerSet acc kv.1 (kv.2.headD "")) base) k
        = headerGet base k := by
  induction l with
  | nil => intro base k _; rfl
  | cons kv t ih =>
    intro base k hk
    simp only [List.foldl_cons]
    rw [ih _ k (fun kv2 h2 => hk kv2 (List.mem_cons_of_mem _ h2)),
      headerGet_headerSet_other _ _ _ _ (Ne.symm (hk kv (List.mem_cons_self _ _)))]

/-- Folding Header.Set over a map with pairwise distinct keys sets every key
to the single first value of its value slice. -/
theorem headerGet_fold_mem (l : List (String × List String)) :
    ∀ (base : Header) (k v : String) (vs : List String),
      (k, v :: vs) ∈ l → (l.map Prod.fst).Nodup →
      headerGet (l.foldl (fun acc kv => headerSet acc kv.1 (kv.2.headD "")) base) k
        = some [v] := by
  induction l with
  | nil => intro _ _ _ _ hmem _; cases hmem
  | cons kv t ih =>
    intro base k v vs hmem hnd
    simp only [List.map_cons, List.nodup_cons] at hnd
    rcases List.mem_cons.mp hmem with h1 | h1
    · subst h1
      simp only [List.foldl_cons]
      have hni : ∀ kv2 ∈ t, kv2.1 ≠ k :=
        fun kv2 h2 hc => hnd.1 (List.mem_map.mpr ⟨kv2, h2, hc⟩)
      rw [headerGet_fold_not_mem t _ k hni, headerGet_headerSet_self]
      rfl
    · exact ih _ k v vs h1 hnd.2

/-- C9: dispatch preparation applies only the first extra-headers map, and
for each of its keys sets only the first value of its value slice; the
remaining maps and the remaining values are silently discarded. -/
theorem c9_first_headers_only (method uri : String) (r : Request)
    (h1 h2 : Header) (hs : List Header)
    (hnd : (h1.map Prod.fst).Nodup) :
    prepareRequest method uri (h1 :: h2 :: hs) r = prepareRequest method uri [h1] r ∧
    ∀ k v vs, (k, v :: vs) ∈ h1 →
      ∃ req, (prepareRequest method uri (h1 :: h2 :: hs) r).request = some req ∧
        headerGet req.header k = some [v] := by
  constructor
  · rfl
  · intro k v vs hmem
    refine ⟨_, rfl, ?_⟩
    by_cases hm : r.mime = ""
    · simpa [prepareRequest, hm] using
        headerGet_fold_mem h1 [] k v vs hmem hnd
    · simpa [prepareRequest, hm] using
        headerGet_fold_mem h1 (headerSet [] "Content-Type" r.mime) k v vs hmem hnd

/-- C9 witness: two extra header maps, the first with a two-valued key; only
the first map and only the first value land on the request. -/
theorem c9_first_headers_only_witness :
    ([("A", ["1", "2"])].map Prod.fst).Nodup ∧
    (prepareRequest "GET" "http://h/x" [[("A", ["1", "2"])], [("B", ["3"])]] NewRequest
        = prepareRequest "GET" "http://h/x" [[("A", ["1", "2"])]] NewRequest ∧
     ∃ req,
       (prepareRequest "GET" "http://h/x" [[("A", ["1", "2"])], [("B", ["3"])]]
           NewRequest).request = some req ∧
       headerGet req.header "A" = some ["1"]) :=
  ⟨by decide,
   ⟨(c9_first_headers_only "GET" "http://h/x" NewRequest [("A", ["1", "2"])]
       [("B", ["3"])] [] (by decide)).1,
    (c9_first_headers_only "GET" "http://h/x" NewRequest [("A", ["1", "2"])]
       [("B", ["3"])] [] (by decide)).2 "A" "1" ["2"] (by decide)⟩⟩

/-- Unfolding of parseJStr at a closing quote. -/
theorem parseJStr_quote (rest : List Char) : parseJStr ('"' :: rest) = some ([], rest) := by
  rw [parseJStr.eq_def]
  simp

/-- Unfolding of parseJStr at a backslash escape. -/
theorem parseJStr_esc (e : Char) (rest : List Char) (he : e = '"' ∨ e = '\\') :
    parseJStr ('\\' :: e :: rest) = (parseJStr rest).map (fun p => (e :: p.1, p.2)) := by
  rw [parseJStr.eq_def]
  simp [he]

/-- Unfolding of parseJStr at an unescaped ordinary character. -/
theorem parseJStr_other (c : Char) (rest : List Char) (h1 : c ≠ '"') (h2 : c ≠ '\\') :
    parseJStr (c :: rest) = (parseJStr rest).map (fun p => (c :: p.1, p.2)) := by
  rw [parseJStr.eq_def]
  simp [h1, h2]

/-- Escaped string bodies reparse to the original string. -/
theorem parseJStr_escape (s : List Char) :
    ∀ rest, parseJStr (escapeJson s ++ '"' :: rest) = some (s, rest) := by
  induction s with
  | nil => intro rest; simp [escapeJson, parseJStr_quote]
  | cons c cs ih =>
    intro rest
    by_cases hc : c = '"' ∨ c = '\\'
    · have h1 : escapeJson (c :: cs) = '\\' :: c :: escapeJson cs := by
        simp [escapeJson, escJChar, if_pos hc]
      rw [h1]
      simp [List.cons_append, parseJStr_esc c _ hc, ih]
    · have h1 : escapeJson (c :: cs) = c :: escapeJson cs := by
        simp [escapeJson, escJChar, if_neg hc]
      rw [h1]
      push_neg at hc
      simp [List.cons_append, parseJStr_other c _ hc.1 hc.2, ih]

/-- Consuming a literal off itself leaves the remainder. -/
theorem dropLit_self (lit : List Char) : ∀ rest, dropLit lit (lit ++ rest) = some rest := by
  induction lit with
  | nil => intro rest; rfl
  | cons c cs ih => intro rest; simp [dropLit, ih]

theorem isDigitCh_ofNat_digit (d : Nat) (hd : d < 10) :
    isDigitCh (Char.ofNat (48 + d)) = true := by
  interval_cases d <;> decide

theorem toNat_ofNat_digit (d : Nat) (hd : d < 10) :
    (Char.ofNat (48 + d)).toNat = 48 + d := by
  interval_cases d <;> decide

theorem renderNat_all_digits (n : Nat) :
    ∀ c ∈ renderNat n, isDigitCh c = true := by
  induction n using Nat.strong_induction_on with
  | _ n ih =>
    rw [renderNat]
    by_cases h : n < 10
    · simp only [if_pos h]
      intro c hc
      simp only [List.mem_singleton] at hc
      subst hc
      exact isDigitCh_ofNat_digit n h
    · simp only [if_neg h]
      intro c hc
      rcases List.mem_append.mp hc with h1 | h1
      · exact ih (n / 10) (by omega) c h1
      · simp only [List.mem_singleton] at h1
        subst h1
        exact isDigitCh_ofNat_digit (n % 10) (by omega)

theorem renderNat_ne_nil (n : Nat) : renderNat n ≠ [] := by
  rw [renderNat]
  by_cases h : n < 10 <;> simp [h]

theorem digitsVal_append_digit (ds : List Char) (d : Char) :
    digitsVal (ds ++ [d]) = 10 * digitsVal ds + (d.toNat - 48) := by
  simp [digitsVal, List.foldl_append]

theorem digitsVal_renderNat (n : Nat) : digitsVal (renderNat n) = n := by
  induction n using Nat.strong_induction_on with
  | _ n ih =>
    rw [renderNat]
    by_cases h : n < 10
    · simp only [if_pos h]
      simp [digitsVal, toNat_ofNat_digit n h]
    · simp only [if_neg h]
      rw [digitsVal_append_digit, ih (n / 10) (by omega),
        toNat_ofNat_digit (n % 10) (by omega)]
      omega

/-- takeWhile walks through a block that satisfies the predicate. -/
theorem takeWhile_append_of_all (p : Char → Bool) (l1 l2 : List Char)
    (h : ∀ c ∈ l1, p c = true) : (l1 ++ l2).takeWhile p = l1 ++ l2.takeWhile p := by
  induction l1 with
  | nil => simp
  | cons c cs ih =>
    simp only [List.cons_append, List.takeWhile_cons, h c (List.mem_cons_self _ _)]
    simp [ih (fun x hx => h x (List.mem_cons_of_mem _ hx))]

/-- dropWhile walks through a block that satisfies the predicate. -/
theorem dropWhile_append_of_all (p : Char → Bool) (l1 l2 : List Char)
    (h : ∀ c ∈ l1, p c = true) : (l1 ++ l2).dropWhile p = l2.dropWhile p := by
  induction l1 with
  | nil => simp
  | cons c cs ih =>
    simp only [List.cons_append, List.dropWhile_cons, h c (List.mem_cons_self _ _)]
    simp [ih (fun x hx => h x (List.mem_cons_of_mem _ hx))]

theorem parseNatNum_render (n : Nat) (rest : List Char)
    (hrest : ∀ c tl, rest = c :: tl → isDigitCh c = false) :
    parseNatNum (renderNat n ++ rest) = some (n, rest) := by
  have htw := takeWhile_append_of_all isDigitCh (renderNat n) rest (renderNat_all_digits n)
  have hdw := dropWhile_append_of_all isDigitCh (renderNat n) rest (renderNat_all_digits n)
  have hrt : rest.takeWhile isDigitCh = [] := by
    cases rest with
    | nil => rfl
    | cons c tl => simp [List.takeWhile_cons, hrest c tl rfl]
  have hrd : rest.dropWhile isDigitCh = rest := by
    cases rest with
    | nil => rfl
    | cons c tl => simp [List.dropWhile_cons, hrest c tl rfl]
  simp [parseNatNum, htw, hdw, hrt, hrd, renderNat_ne_nil, digitsVal_renderNat]

theorem delimOk_not_digit (rest : List Char) (h : delimOk rest) :
    ∀ c tl, rest = c :: tl → isDigitCh c = false := by
  intro c tl he
  subst he
  simp only [delimOk] at h
  rcases h with h | h | h <;> (subst h; decide)

theorem parseIntNum_render (n : Int) (rest : List Char) (h : delimOk rest) :
    parseIntNum (renderInt n ++ rest) = some (n, rest) := by
  have hnd := delimOk_not_digit rest h
  by_cases hneg : n < 0
  · have h1 : renderInt n = '-' :: renderNat n.natAbs := by simp [renderInt, hneg]
    rw [h1]
    simp only [List.cons_append, parseIntNum, if_pos rfl, if_true,
      parseNatNum_render n.natAbs rest hnd]
    simp [abs_of_neg hneg]
  · have h1 : renderInt n = renderNat n.toNat := by simp [renderInt, hneg]
    obtain ⟨d, ds, hd⟩ := List.exists_cons_of_ne_nil (renderNat_ne_nil n.toNat)
    have hdig : isDigitCh d = true :=
      renderNat_all_digits n.toNat d (by rw [hd]; exact List.mem_cons_self _ _)
    have hdm : d ≠ '-' := by
      intro hh
      rw [hh] at hdig
      exact absurd hdig (by decide)
    have hnum := parseNatNum_render n.toNat rest hnd
    rw [hd] at hnum
    rw [h1, hd]
    simp only [List.cons_append] at hnum ⊢
    simp only [parseIntNum, if_neg hdm, hnum, Option.map_some]
    have h2 : ((n.toNat : Nat) : Int) = n := by omega
    simp [h2]

/-- A digit cannot be any of the parser's dispatch or delimiter
characters. -/
theorem digit_not_special (d : Char) (hd : isDigitCh d = true) :
    d ≠ '"' ∧ d ≠ '[' ∧ d ≠ lbrace ∧ d ≠ 't' ∧ d ≠ 'f' ∧ d ≠ 'n' ∧
      d ≠ ']' ∧ d ≠ rbrace ∧ d ≠ ',' ∧ d ≠ ':' ∧ d ≠ '-' := by
  refine ⟨?_, ?_, ?_, ?_, ?_, ?_, ?_, ?_, ?_, ?_, ?_⟩ <;>
    (intro h; subst h; exact absurd hd (by decide))

/-- The first character of a rendered serializable value selects its parser
branch. -/
theorem render_head (v : JVal) (hs : v.serializable = true) :
    ∃ c cs, v.render = c :: cs ∧
      (c = 'n' ∨ c = 't' ∨ c = 'f' ∨ c = '"' ∨ c = '[' ∨ c = lbrace ∨
        c = '-' ∨ isDigitCh c = true) := by
  cases v with
  | null => exact ⟨'n', ['u', 'l', 'l'], by simp [JVal.render, nullLit], by simp⟩
  | bool b =>
    cases b with
    | true => exact ⟨'t', ['r', 'u', 'e'], by simp [JVal.render, trueLit], by simp⟩
    | false => exact ⟨'f', ['a', 'l', 's', 'e'], by simp [JVal.render, falseLit], by simp⟩
  | num n =>
    by_cases hneg : n < 0
    · exact ⟨'-', renderNat n.natAbs, by simp [JVal.render, renderInt, hneg], by simp⟩
    · obtain ⟨d, ds, hd⟩ := List.exists_cons_of_ne_nil (renderNat_ne_nil n.toNat)
      refine ⟨d, ds, ?_, ?_⟩
      · simp [JVal.render, renderInt, hneg, hd]
      · exact Or.inr (Or.inr (Or.inr (Or.inr (Or.inr (Or.inr (Or.inr
          (renderNat_all_digits n.toNat d (by rw [hd]; exact List.mem_cons_self _ _))))))))
  | str s => exact ⟨'"', escapeJson s ++ ['"'], by simp [JVal.render], by simp⟩
  | arr es => exact ⟨'[', renderElems es ++ [']'], by simp [JVal.render], by simp⟩
  | obj fs => exact ⟨lbrace, renderFields fs ++ [rbrace], by simp [JVal.render], by simp⟩
  | unsupported => simp [JVal.serializable] at hs

/-- The character after a rendered value inside an envelope is never the
start of a value. -/
theorem startChar_ne (c : Char)
    (h : c = 'n' ∨ c = 't' ∨ c = 'f' ∨ c = '"' ∨ c = '[' ∨ c = lbrace ∨
      c = '-' ∨ isDigitCh c = true) :
    c ≠ ']' ∧ c ≠ rbrace := by
  rcases h with h | h | h | h | h | h | h | h
  all_goals
    first
      | (subst h; exact ⟨by decide, by decide⟩)
      | (exact ⟨(digit_not_special c h).2.2.2.2.2.2.1,
          (digit_not_special c h).2.2.2.2.2.2.2.1⟩)

theorem n_ne_lbrace : ('n' : Char) ≠ lbrace := by decide

theorem t_ne_lbrace : ('t' : Char) ≠ lbrace := by decide

theorem f_ne_lbrace : ('f' : Char) ≠ lbrace := by decide

theorem dash_ne_lbrace : ('-' : Char) ≠ lbrace := by decide

theorem quote_ne_rbrace : ('"' : Char) ≠ rbrace := by decide

theorem lbrace_ne_quote : lbrace ≠ ('"' : Char) := by decide

theorem lbrace_ne_lbrack : lbrace ≠ ('[' : Char) := by decide

theorem rbrace_ne_comma : rbrace ≠ (',' : Char) := by decide

mutual

/-- Rendered serializable values reparse to themselves, whatever legal
delimiter follows. -/
theorem parseVal_render (fuel : Nat) (v : JVal) (hs : v.serializable = true)
    (hf : v.fuelSize ≤ fuel) :
    ∀ rest, delimOk rest → parseVal fuel (v.render ++ rest) = some (v, rest) := by
  cases fuel with
  | zero =>
    exfalso
    cases v <;> simp [JVal.fuelSize] at hf
  | succ f =>
    intro rest hrest
    cases v with
    | null => simp [JVal.render, nullLit, parseVal, dropLit, n_ne_lbrace]
    | bool b =>
      cases b with
      | true => simp [JVal.render, trueLit, parseVal, dropLit, t_ne_lbrace]
      | false => simp [JVal.render, falseLit, parseVal, dropLit, f_ne_lbrace]
    | str s => simp [JVal.render, parseVal, parseJStr_escape]
    | num n =>
      have key := parseIntNum_render n rest hrest
      by_cases hneg : n < 0
      · have h1 : (JVal.num n).render = '-' :: renderNat n.natAbs := by
          simp [JVal.render, renderInt, hneg]
        have h2 : renderInt n = '-' :: renderNat n.natAbs := by simp [renderInt, hneg]
        rw [h2] at key
        rw [h1]
        simp only [List.cons_append] at key ⊢
        simp [parseVal, dash_ne_lbrace, key]
      · obtain ⟨d, ds, hd⟩ := List.exists_cons_of_ne_nil (renderNat_ne_nil n.toNat)
        have hdig := renderNat_all_digits n.toNat d (by rw [hd]; exact List.mem_cons_self _ _)
        obtain ⟨e1, e2, e3, e4, e5, e6, _, _, _, _, e7⟩ := digit_not_special d hdig
        have h1 : (JVal.num n).render = d :: ds := by
          simp [JVal.render, renderInt, hneg, hd]
        have h2 : renderInt n = d :: ds := by simp [renderInt, hneg, hd]
        rw [h2] at key
        rw [h1]
        simp only [List.cons_append] at key ⊢
        simp [parseVal, e1, e2, e3, e4, e5, e6, key]
    | arr es =>
      cases es with
      | nil => simp [JVal.render, renderElems, parseVal]
      | cons e es2 =>
        have hsl : serializableList (e :: es2) = true := by
          simpa [JVal.serializable] using hs
        have hsp : e.serializable = true ∧ serializableList es2 = true := by
          simpa [serializableList, Bool.and_eq_true] using hsl
        have hfe : fuelElems (e :: es2) ≤ f := by
          simp only [JVal.fuelSize] at hf
          omega
        obtain ⟨c0, cs0, hc0, hstart⟩ := render_head e hsp.1
        have hmain := parseElems_render f (e :: es2) (by simp) hsl hfe rest
        have hren : (JVal.arr (e :: es2)).render ++ rest
            = '[' :: (renderElems (e :: es2) ++ ']' :: rest) := by
          simp [JVal.render]
        rw [hren]
        have hhead : ∃ tl, renderElems (e :: es2) = c0 :: tl := by
          cases es2 with
          | nil => exact ⟨cs0, by simp [renderElems, hc0]⟩
          | cons e2 es3 =>
            exact ⟨cs0 ++ ',' :: renderElems (e2 :: es3), by simp [renderElems, hc0]⟩
        obtain ⟨tl, htl⟩ := hhead
        rw [htl] at hmain
        rw [htl]
        simp only [List.cons_append] at hmain ⊢
        have hne0 := startChar_ne c0 hstart
        simp [parseVal, hne0.1, hmain]
    | obj fs =>
      cases fs with
      | nil => simp [JVal.render, renderFields, parseVal, lbrace_ne_quote, lbrace_ne_lbrack]
      | cons kv fs2 =>
        have hsf : serializableFields (kv :: fs2) = true := by
          simpa [JVal.serializable] using hs
        have hff : fuelFields (kv :: fs2) ≤ f := by
          simp only [JVal.fuelSize] at hf
          omega
        have hmain := parseFields_render f (kv :: fs2) (by simp) hsf hff rest
        have hren : (JVal.obj (kv :: fs2)).render ++ rest
            = lbrace :: (renderFields (kv :: fs2) ++ rbrace :: rest) := by
          simp [JVal.render]
        rw [hren]
        have hhead : ∃ tl, renderFields (kv :: fs2) = '"' :: tl := by
          cases fs2 with
          | nil =>
            exact ⟨escapeJson kv.1 ++ '"' :: ':' :: kv.2.render,
              by simp [renderFields, renderField]⟩
          | cons kv2 fs3 =>
            exact ⟨escapeJson kv.1 ++ '"' :: ':' :: kv.2.render
                ++ ',' :: renderFields (kv2 :: fs3),
              by simp [renderFields, renderField]⟩
        obtain ⟨tl, htl⟩ := hhead
        rw [htl] at hmain
        rw [htl]
        simp only [List.cons_append] at hmain ⊢
        simp [parseVal, quote_ne_rbrace, lbrace_ne_quote, lbrace_ne_lbrack, hmain]
    | unsupported => simp [JVal.serializable] at hs

/-- Rendered nonempty element lists followed by the closing bracket reparse
to themselves. -/
theorem parseElems_render (fuel : Nat) (es : List JVal) (hne : es ≠ [])
    (hs : serializableList es = true) (hf : fuelElems es ≤ fuel) :
    ∀ rest, parseElems fuel (renderElems es ++ ']' :: rest) = some (es, rest) := by
  cases fuel with
  | zero =>
    exfalso
    cases es with
    | nil => exact hne rfl
    | cons e es2 => simp [fuelElems] at hf
  | succ f =>
    intro rest
    cases es with
    | nil => exact absurd rfl hne
    | cons e es2 =>
      have hsp : e.serializable = true ∧ serializableList es2 = true := by
        simpa [serializableList, Bool.and_eq_true] using hs
      have hfp : JVal.fuelSize e ≤ f ∧ fuelElems es2 ≤ f := by
        simp only [fuelElems] at hf
        constructor <;> omega
      cases es2 with
      | nil =>
        have h1 : renderElems [e] = e.render := by simp [renderElems]
        rw [h1]
        have hv := parseVal_render f e hsp.1 hfp.1 (']' :: rest) (by simp [delimOk])
        simp [parseElems, hv]
      | cons e2 es3 =>
        have h1 : renderElems (e :: e2 :: es3) ++ ']' :: rest
            = e.render ++ (',' :: (renderElems (e2 :: es3) ++ ']' :: rest)) := by
          simp [renderElems]
        rw [h1]
        have hv := parseVal_render f e hsp.1 hfp.1
          (',' :: (renderElems (e2 :: es3) ++ ']' :: rest)) (by simp [delimOk])
        have hrec := parseElems_render f (e2 :: es3) (by simp) hsp.2 hfp.2 rest
        simp [parseElems, hv, hrec]

/-- Rendered nonempty field lists followed by the closing brace reparse to
themselves. -/
theorem parseFields_render (fuel : Nat) (fs : List (List Char × JVal)) (hne : fs ≠ [])
    (hs : serializableFields fs = true) (hf : fuelFields fs ≤ fuel) :
    ∀ rest, parseFields fuel (renderFields fs ++ rbrace :: rest) = some (fs, rest) := by
  cases fuel with
  | zero =>
    exfalso
    cases fs with
    | nil => exact hne rfl
    | cons kv fs2 => simp [fuelFields] at hf
  | succ f =>
    intro rest
    cases fs with
    | nil => exact absurd rfl hne
    | cons kv fs2 =>
      obtain ⟨k, v⟩ := kv
      have hsp : v.serializable = true ∧ serializableFields fs2 = true := by
        simpa [serializableFields, Bool.and_eq_true] using hs
      have hfp : JVal.fuelSize v ≤ f ∧ fuelFields fs2 ≤ f := by
        simp only [fuelFields] at hf
        constructor <;> omega
      cases fs2 with
      | nil =>
        have h1 : renderFields [(k, v)] ++ rbrace :: rest
            = '"' :: (escapeJson k ++ '"' :: (':' :: (v.render ++ rbrace :: rest))) := by
          simp [renderFields, renderField]
        rw [h1]
        have hv := parseVal_render f v hsp.1 hfp.1 (rbrace :: rest) (by simp [delimOk])
        simp [parseFields, parseJStr_escape, hv, rbrace_ne_comma]
      | cons kv2 fs3 =>
        have h1 : renderFields ((k, v) :: kv2 :: fs3) ++ rbrace :: rest
            = '"' :: (escapeJson k ++ '"' ::
                (':' :: (v.render ++ (',' :: (renderFields (kv2 :: fs3) ++ rbrace :: rest))))) := by
          simp [renderFields, renderField]
        rw [h1]
        have hv := parseVal_render f v hsp.1 hfp.1
          (',' :: (renderFields (kv2 :: fs3) ++ rbrace :: rest)) (by simp [delimOk])
        have hrec := parseFields_render f (kv2 :: fs3) (by simp) hsp.2 hfp.2 rest
        simp [parseFields, parseJStr_escape, hv, hrec]

end

mutual

/-- The decoder's fuel requirement is covered by the document length. -/
theorem fuelSize_le_len (v : JVal) : v.fuelSize ≤ v.render.length + 1 := by
  cases v with
  | null => simp [JVal.fuelSize, JVal.render, nullLit]
  | bool b => cases b <;> simp [JVal.fuelSize, JVal.render, trueLit, falseLit]
  | num n => simp [JVal.fuelSize]
  | str s => simp [JVal.fuelSize]
  | arr es =>
    have h := fuelElems_le_len es
    simp only [JVal.fuelSize, JVal.render, List.length_cons, List.length_append]
    omega
  | obj fs =>
    have h := fuelFields_le_len fs
    simp only [JVal.fuelSize, JVal.render, List.length_cons, List.length_append]
    omega
  | unsupported => simp [JVal.fuelSize, JVal.render]

/-- Fuel bound for element lists. -/
theorem fuelElems_le_len (es : List JVal) : fuelElems es ≤ (renderElems es).length + 2 := by
  cases es with
  | nil => simp [fuelElems]
  | cons e es2 =>
    have h1 := fuelSize_le_len e
    cases es2 with
    | nil =>
      simp only [fuelElems, renderElems]
      omega
    | cons e2 es3 =>
      have h2 := fuelElems_le_len (e2 :: es3)
      have hu : fuelElems (e :: e2 :: es3)
          = 1 + max (JVal.fuelSize e) (fuelElems (e2 :: es3)) := by
        simp [fuelElems]
      have hr : renderElems (e :: e2 :: es3)
          = e.render ++ ',' :: renderElems (e2 :: es3) := by
        simp [renderElems]
      rw [hu, hr]
      simp only [List.length_append, List.length_cons]
      omega

/-- Fuel bound for field lists. -/
theorem fuelFields_le_len (fs : List (List Char × JVal)) :
    fuelFields fs ≤ (renderFields fs).length + 2 := by
  cases fs with
  | nil => simp [fuelFields]
  | cons kv fs2 =>
    have h1 := fuelSize_le_len kv.2
    cases fs2 with
    | nil =>
      simp only [fuelFields, renderFields, renderField, List.length_append, List.length_cons]
      omega
    | cons kv2 fs3 =>
      have h2 := fuelFields_le_len (kv2 :: fs3)
      have hu : fuelFields (kv :: kv2 :: fs3)
          = 1 + max (JVal.fuelSize kv.2) (fuelFields (kv2 :: fs3)) := by
        simp [fuelFields]
      have hr : renderFields (kv :: kv2 :: fs3)
          = renderField kv ++ ',' :: renderFields (kv2 :: fs3) := by
        simp [renderFields]
      rw [hu, hr]
      simp only [renderField, List.length_append, List.length_cons]
      omega

end

/-- The length-fuelled decoder inverts the renderer on serializable
values. -/
theorem jsonParse_render (v : JVal) (hs : v.serializable = true) :
    jsonParse v.render = some v := by
  have hb := fuelSize_le_len v
  have h1 := parseVal_render (v.render.length + 1) v hs hb [] (by simp [delimOk])
  rw [List.append_nil] at h1
  simp [jsonParse, h1]

/-- C6: withJSON on a serializable value sets the application/json content
type and a body whose bytes decode back to the value itself; on an
unserializable value it records the serialization error and leaves body and
content type untouched. -/
theorem c6_with_json (d : JVal) (r : Request) :
    (d.serializable = true →
      (Json d r).mime = "application/json" ∧
      (Json d r).body = some (Body.bytes d.render) ∧
      jsonParse d.render = some d) ∧
    (d.serializable = false →
      (Json d r).err = some errJsonUnsupported ∧
      (Json d r).body = r.body ∧
      (Json d r).mime = r.mime) := by
  constructor
  · intro h
    refine ⟨?_, ?_, jsonParse_render d h⟩ <;> simp [Json, jsonMarshal, h]
  · intro h
    refine ⟨?_, ?_, ?_⟩ <;> simp [Json, jsonMarshal, h]

/-- C6 witness: a serializable object and the unsupported value, at a fresh
builder. -/
theorem c6_with_json_witness :
    (JVal.obj [(['a'], JVal.num (-2))]).serializable = true ∧
    ((Json (JVal.obj [(['a'], JVal.num (-2))]) NewRequest).mime = "application/json" ∧
     (Json (JVal.obj [(['a'], JVal.num (-2))]) NewRequest).body
        = some (Body.bytes (JVal.obj [(['a'], JVal.num (-2))]).render) ∧
     jsonParse (JVal.obj [(['a'], JVal.num (-2))]).render
        = some (JVal.obj [(['a'], JVal.num (-2))])) ∧
    JVal.unsupported.serializable = false ∧
    ((Json JVal.unsupported NewRequest).err = some errJsonUnsupported ∧
     (Json JVal.unsupported NewRequest).body = NewRequest.body ∧
     (Json JVal.unsupported NewRequest).mime = NewRequest.mime) :=
  ⟨by simp [JVal.serializable, serializableFields, serializableList],
   (c6_with_json (JVal.obj [(['a'], JVal.num (-2))]) NewRequest).1
     (by simp [JVal.serializable, serializableFields, serializableList]),
   by simp [JVal.serializable],
   (c6_with_json JVal.unsupported NewRequest).2 (by simp [JVal.serializable])⟩

/-- C10: the contentType variable of the AttachFiles loop carries over
between iterations: in staleFiles, field b is a file supplied without its
own content type, yet its part is serialised with field a's text/csv instead
of an absent content type (and no error is recorded). -/
theorem c10_stale_content_type :
    (AttachFiles "bnd" staleFiles NewRequest).err = none ∧
    (AttachFiles "bnd" staleFiles NewRequest).body =
      some (Body.multipart "bnd"
        [{ field := "a", fileName := none, contentType := "", content := ['x'] },
         { field := "b", fileName := some "b.txt", contentType := "text/csv",
           content := ['y'] }]) := by
  decide

theorem queryUnescape_nil : queryUnescape [] = some [] := by
  rw [queryUnescape.eq_def]

theorem queryUnescape_other (c : Char) (rest : List Char) (h1 : c ≠ '%') (h2 : c ≠ '+') :
    queryUnescape (c :: rest) = (queryUnescape rest).map (fun t => c :: t) := by
  rw [queryUnescape.eq_def]
  simp [h1, h2]

theorem queryUnescape_plus (rest : List Char) :
    queryUnescape ('+' :: rest) = (queryUnescape rest).map (fun t => ' ' :: t) := by
  rw [queryUnescape.eq_def]
  simp

theorem queryUnescape_pct (a b : Char) (rest : List Char)
    (ha : isHexDigit a = true) (hb : isHexDigit b = true) :
    queryUnescape ('%' :: a :: b :: rest)
      = (queryUnescape rest).map (fun t => Char.ofNat (16 * unhex a + unhex b) :: t) := by
  rw [queryUnescape.eq_def]
  simp [ha, hb]

theorem isHexDigit_hexUpper (d : Nat) (hd : d < 16) : isHexDigit (hexDigitUpper d) = true := by
  interval_cases d <;> decide

theorem unhex_hexUpper (d : Nat) (hd : d < 16) : unhex (hexDigitUpper d) = d := by
  interval_cases d <;> decide

theorem hexUpper_not_sep (d : Nat) (hd : d < 16) :
    hexDigitUpper d ≠ '&' ∧ hexDigitUpper d ≠ '=' ∧ hexDigitUpper d ≠ ';' := by
  interval_cases d <;> exact ⟨by decide, by decide, by decide⟩

theorem space_not_unreserved : isUnreserved ' ' = false := by decide

theorem unreserved_ne (c : Char) (h : isUnreserved c = true) :
    c ≠ '%' ∧ c ≠ '+' ∧ c ≠ '&' ∧ c ≠ '=' ∧ c ≠ ';' := by
  refine ⟨?_, ?_, ?_, ?_, ?_⟩ <;> (intro he; subst he; exact absurd h (by decide))

/-- Unescaping inverts the escaping of one byte, wherever it sits. -/
theorem queryUnescape_escapeChar (c : Char) (hc : c.toNat < 256) (rest : List Char) :
    queryUnescape (escapeChar c ++ rest) = (queryUnescape rest).map (fun t => c :: t) := by
  by_cases h1 : isUnreserved c
  · obtain ⟨e1, e2, _, _, _⟩ := unreserved_ne c h1
    simp [escapeChar, h1, queryUnescape_other c rest e1 e2]
  · by_cases h2 : c = ' '
    · subst h2
      simp [escapeChar, space_not_unreserved, queryUnescape_plus]
    · have hdiv : c.toNat / 16 < 16 := by omega
      have hmod : c.toNat % 16 < 16 := by omega
      have h3 : escapeChar c
          = ['%', hexDigitUpper (c.toNat / 16), hexDigitUpper (c.toNat % 16)] := by
        simp [escapeChar, h1, h2]
      rw [h3]
      simp only [List.cons_append, List.nil_append]
      rw [queryUnescape_pct _ _ rest (isHexDigit_hexUpper _ hdiv) (isHexDigit_hexUpper _ hmod),
        unhex_hexUpper _ hdiv, unhex_hexUpper _ hmod]
      have h4 : 16 * (c.toNat / 16) + c.toNat % 16 = c.toNat := by omega
      rw [h4, Char.ofNat_toNat]

/-- Unescaping inverts the escaping of a byte string, wherever it sits. -/
theorem queryUnescape_escape_aux (s : List Char) (hs : byteOk s) :
    ∀ rest, queryUnescape (queryEscape s ++ rest)
      = (queryUnescape rest).map (fun t => s ++ t) := by
  induction s with
  | nil =>
    intro rest
    simp only [queryEscape, List.map_nil, List.flatten_nil, List.nil_append]
    cases queryUnescape rest <;> simp
  | cons c cs ih =>
    intro rest
    have hc : c.toNat < 256 := hs c (List.mem_cons_self _ _)
    have h1 : queryEscape (c :: cs) = escapeChar c ++ queryEscape cs := by
      simp [queryEscape]
    rw [h1, List.append_assoc, queryUnescape_escapeChar c hc,
      ih (fun x hx => hs x (List.mem_cons_of_mem _ hx)) rest]
    cases queryUnescape rest <;> simp

theorem queryUnescape_escape (s : List Char) (hs : byteOk s) :
    queryUnescape (queryEscape s) = some s := by
  have h := queryUnescape_escape_aux s hs []
  rw [List.append_nil] at h
  rw [h, queryUnescape_nil]
  simp

/-- Escaped byte strings contain neither separators nor the semicolon. -/
theorem queryEscape_no_sep (s : List Char) (hs : byteOk s) :
    ∀ c ∈ queryEscape s, c ≠ '&' ∧ c ≠ '=' ∧ c ≠ ';' := by
  intro c hcmem
  simp only [queryEscape, List.mem_flatten, List.mem_map] at hcmem
  obtain ⟨l, ⟨x, hx, hlx⟩, hcl⟩ := hcmem
  subst hlx
  have hxb : x.toNat < 256 := hs x hx
  by_cases h1 : isUnreserved x
  · simp only [escapeChar, h1, if_true, List.mem_singleton] at hcl
    obtain ⟨_, _, e3, e4, e5⟩ := unreserved_ne x h1
    subst hcl
    exact ⟨e3, e4, e5⟩
  · by_cases h2 : x = ' '
    · have h3 : escapeChar x = ['+'] := by
        subst h2
        simp [escapeChar, space_not_unreserved]
      rw [h3] at hcl
      simp only [List.mem_singleton] at hcl
      subst hcl
      exact ⟨by decide, by decide, by decide⟩
    · have hdiv : x.toNat / 16 < 16 := by omega
      have hmod : x.toNat % 16 < 16 := by omega
      have h3 : escapeChar x
          = ['%', hexDigitUpper (x.toNat / 16), hexDigitUpper (x.toNat % 16)] := by
        simp [escapeChar, h1, h2]
      rw [h3] at hcl
      simp only [List.mem_cons, List.not_mem_nil, or_false] at hcl
      rcases hcl with h | h | h
      · subst h; exact ⟨by decide, by decide, by decide⟩
      · subst h; exact hexUpper_not_sep _ hdiv
      · subst h; exact hexUpper_not_sep _ hmod

/-- Cutting at the separator recovers the two escaped halves. -/
theorem cutChar_append (l1 l2 : List Char) (h : ('=' : Char) ∉ l1) :
    cutChar '=' (l1 ++ '=' :: l2) = (l1, l2) := by
  induction l1 with
  | nil => simp [cutChar]
  | cons c cs ih =>
    have hc : c ≠ '=' := fun he => h (he ▸ List.mem_cons_self c cs)
    simp [cutChar, hc, ih (fun hm => h (List.mem_cons_of_mem _ hm))]

/-- One ParseQuery loop iteration on an encoded pair appends the pair. -/
theorem parseQueryStep_piece (m : Values) (k v : List Char) (hk : byteOk k) (hv : byteOk v) :
    parseQueryStep (m, none) (queryEscape k ++ '=' :: queryEscape v) = (addValue m k v, none) := by
  have hns : (';' : Char) ∉ queryEscape k ++ '=' :: queryEscape v := by
    intro hmem
    rcases List.mem_append.mp hmem with h | h
    · exact (queryEscape_no_sep k hk ';' h).2.2 rfl
    · rcases List.mem_cons.mp h with h | h
      · exact absurd h (by decide)
      · exact (queryEscape_no_sep v hv ';' h).2.2 rfl
  have hcon : (queryEscape k ++ '=' :: queryEscape v).contains ';' = false := by
    simpa using hns
  have hne : queryEscape k ++ '=' :: queryEscape v ≠ [] := by simp
  have hna : ('=' : Char) ∉ queryEscape k :=
    fun hmem => (queryEscape_no_sep k hk '=' hmem).2.1 rfl
  have hcut := cutChar_append (queryEscape k) (queryEscape v) hna
  simp only [parseQueryStep, hcon, Bool.false_eq_true, if_false, if_neg hne, hcut,
    queryUnescape_escape k hk, queryUnescape_escape v hv]

/-- Appending a value under a fresh key appends the key. -/
theorem addValue_new (m : Values) (k v : List Char) (h : ∀ kv ∈ m, kv.1 ≠ k) :
    addValue m k v = m ++ [(k, [v])] := by
  have hany : m.any (fun kv => kv.1 = k) = false := by
    apply List.any_eq_false.mpr
    intro kv hkv
    simpa using h kv hkv
  simp [addValue, hany]

/-- Appending a value under the trailing key extends its value list. -/
theorem addValue_existing (m : Values) (k : List Char) (acc : List (List Char)) (v : List Char)
    (h : ∀ kv ∈ m, kv.1 ≠ k) :
    addValue (m ++ [(k, acc)]) k v = m ++ [(k, acc ++ [v])] := by
  have hany : (m ++ [(k, acc)]).any (fun kv => kv.1 = k) = true :=
    List.any_eq_true.mpr ⟨(k, acc), by simp, by simp⟩
  simp only [addValue, hany, if_true, List.map_append]
  have hmap : ∀ m2 : Values, (∀ kv ∈ m2, kv.1 ≠ k) →
      m2.map (fun kv => if kv.1 = k then (k, kv.2 ++ [v]) else kv) = m2 := by
    intro m2
    induction m2 with
    | nil => intro _; rfl
    | cons kv2 t ihm =>
      intro hm2
      simp only [List.map_cons, if_neg (hm2 kv2 (List.mem_cons_self _ _))]
      rw [ihm (fun x hx => hm2 x (List.mem_cons_of_mem _ hx))]
  rw [hmap m h]
  simp

/-- Folding the loop over the pieces of one key collects all its values in
order. -/
theorem fold_key_values (k : List Char) (hk : byteOk k) :
    ∀ (vs : List (List Char)), (∀ v ∈ vs, byteOk v) →
      ∀ (m : Values) (acc : List (List Char)), (∀ kv ∈ m, kv.1 ≠ k) →
      List.foldl parseQueryStep (m ++ [(k, acc)], none)
          (vs.map (fun v => queryEscape k ++ '=' :: queryEscape v))
        = (m ++ [(k, acc ++ vs)], none) := by
  intro vs
  induction vs with
  | nil => intro _ m acc _; simp
  | cons v vrest ih =>
    intro hv m acc hm
    simp only [List.map_cons, List.foldl_cons]
    rw [parseQueryStep_piece _ k v hk (hv v (List.mem_cons_self _ _)),
      addValue_existing m k acc v hm,
      ih (fun x hx => hv x (List.mem_cons_of_mem _ hx)) m (acc ++ [v]) hm]
    simp

/-- Folding the loop over all encoded pieces reconstructs the multi-map
behind what was already accumulated. -/
theorem fold_query (q : Values) :
    ∀ m : Values,
      (∀ kv ∈ q, byteOk kv.1 ∧ kv.2 ≠ [] ∧ ∀ v ∈ kv.2, byteOk v) →
      (q.map Prod.fst).Nodup →
      (∀ kv ∈ q, ∀ kv2 ∈ m, kv2.1 ≠ kv.1) →
      List.foldl parseQueryStep (m, none)
          ((q.map (fun kv => kv.2.map (fun v => queryEscape kv.1 ++ '=' :: queryEscape v))).flatten)
        = (m ++ q, none) := by
  induction q with
  | nil => intro m _ _ _; simp
  | cons kv t ih =>
    intro m hb hnd hdisj
    obtain ⟨k, vs⟩ := kv
    obtain ⟨hkb, hvne, hvb⟩ := hb (k, vs) (List.mem_cons_self _ _)
    simp only [List.map_cons, List.flatten_cons, List.foldl_append]
    cases vs with
    | nil => exact absurd rfl hvne
    | cons v0 vrest =>
      have hm : ∀ kv2 ∈ m, kv2.1 ≠ k :=
        fun kv2 h2 => hdisj (k, v0 :: vrest) (List.mem_cons_self _ _) kv2 h2
      have step1 : List.foldl parseQueryStep (m, none)
          ((v0 :: vrest).map (fun v => queryEscape k ++ '=' :: queryEscape v))
          = (m ++ [(k, v0 :: vrest)], none) := by
        simp only [List.map_cons, List.foldl_cons]
        rw [parseQueryStep_piece m k v0 hkb (hvb v0 (List.mem_cons_self _ _)),
          addValue_new m k v0 hm,
          fold_key_values k hkb vrest (fun x hx => hvb x (List.mem_cons_of_mem _ hx)) m [v0] hm]
        simp
      rw [step1]
      simp only [List.map_cons, List.nodup_cons] at hnd
      have hdisj2 : ∀ kv ∈ t, ∀ kv2 ∈ m ++ [(k, v0 :: vrest)], kv2.1 ≠ kv.1 := by
        intro kv hkv kv2 hkv2
        rcases List.mem_append.mp hkv2 with h | h
        · exact hdisj kv (List.mem_cons_of_mem _ hkv) kv2 h
        · simp only [List.mem_singleton] at h
          subst h
          intro he
          exact hnd.1 (List.mem_map.mpr ⟨kv, hkv, he.symm⟩)
      rw [ih (m ++ [(k, v0 :: vrest)]) (fun kv hkv => hb kv (List.mem_cons_of_mem _ hkv))
        hnd.2 hdisj2]
      simp

/-- Percent-decoding an encoded well-formed multi-map recovers it exactly,
with no decode error. -/
theorem parseQuery_encode (q : Values) (hq : validQuery q) :
    parseQuery (urlValuesEncode q) = (q, none) := by
  obtain ⟨hnd, hb⟩ := hq
  by_cases hq0 : q = []
  · subst hq0
    simp [parseQuery, urlValuesEncode, parseQueryStep, List.intercalate]
  · have hsplit : (urlValuesEncode q).splitOn '&'
        = (q.map (fun kv => kv.2.map (fun v => queryEscape kv.1 ++ '=' :: queryEscape v))).flatten := by
      rw [urlValuesEncode]
      apply List.splitOn_intercalate
      · intro l hl
        simp only [List.mem_flatten, List.mem_map] at hl
        obtain ⟨l2, ⟨kv, hkv, hl2⟩, hll⟩ := hl
        subst hl2
        simp only [List.mem_map] at hll
        obtain ⟨v, hvv, hpiece⟩ := hll
        subst hpiece
        obtain ⟨hkb, _, hvb⟩ := hb kv hkv
        intro hmem
        rcases List.mem_append.mp hmem with h | h
        · exact (queryEscape_no_sep kv.1 hkb '&' h).1 rfl
        · rcases List.mem_cons.mp h with h | h
          · exact absurd h (by decide)
          · exact (queryEscape_no_sep v (hvb v hvv) '&' h).1 rfl
      · cases q with
        | nil => exact absurd rfl hq0
        | cons kv t =>
          obtain ⟨_, hvne, _⟩ := hb kv (List.mem_cons_self _ _)
          cases hvv : kv.2 with
          | nil => exact absurd hvv hvne
          | cons v0 vr => simp [hvv]
    rw [parseQuery, hsplit,
      fold_query q [] hb hnd (by intro kv _ kv2 h2; cases h2)]
    simp

/-- prepareRequest installs a request whose raw query is the accumulated
params. -/
theorem prepareRequest_request (method uri : String) (headers : List Header) (r : Request) :
    ∃ req, (prepareRequest method uri headers r).request = some req ∧
      req.rawQuery = r.params := by
  simp only [prepareRequest]
  refine ⟨_, rfl, ?_⟩
  cases headers with
  | nil => by_cases hm : r.mime = "" <;> simp [hm]
  | cons h hs => by_cases hm : r.mime = "" <;> simp [hm]

/-- prepareCookies keeps the request's raw query. -/
theorem prepareCookies_request (r : Request) (req : HttpReq) (h : r.request = some req) :
    ∃ req2, (prepareCookies r).request = some req2 ∧ req2.rawQuery = req.rawQuery := by
  simp [prepareCookies, h]

/-- The builder Do returns when no error is recorded is the prepared one. -/
theorem do_builder (send : Client) (method uri : String) (headers : List Header)
    (r : Request) (hr : r.err = none) :
    (Do send method uri headers r).2.1
      = prepareCookies (prepareRequest method uri headers r) := by
  simp only [Do, hr]
  cases h2 : (prepareCookies (prepareRequest method uri headers r)).err with
  | some e => simp [h2]
  | none =>
    cases h3 : (prepareCookies (prepareRequest method uri headers r)).request with
    | some req => simp [h2, h3]
    | none => simp [h2, h3]

/-- C7: withQuery followed by dispatch produces a request whose raw query
string is exactly the encoding of q, and percent-decoding that query string
recovers q with no decode error. -/
theorem c7_query_roundtrip (q : Values) (send : Client) (uri : String)
    (headers : List Header) (r : Request) (hr : r.err = none) (hq : validQuery q) :
    ∃ req, ((Do send "GET" uri headers (WithQuery q r)).2.1).request = some req ∧
      req.rawQuery = urlValuesEncode q ∧
      parseQuery req.rawQuery = (q, none) := by
  have hkey := parseQuery_encode q hq
  have h0 : (WithQuery q r).err = none := hr
  rw [do_builder send "GET" uri headers (WithQuery q r) h0]
  obtain ⟨req, hreq, hrq⟩ := prepareRequest_request "GET" uri headers (WithQuery q r)
  obtain ⟨req2, hreq2, hrq2⟩ := prepareCookies_request _ req hreq
  have hparams : (WithQuery q r).params = urlValuesEncode q := rfl
  refine ⟨req2, hreq2, ?_, ?_⟩
  · rw [hrq2, hrq, hparams]
  · rw [hrq2, hrq, hparams]
    exact hkey

/-- C7 witness at a concrete multi-map whose bytes exercise escaping. -/
theorem c7_query_roundtrip_witness :
    NewRequest.err = none ∧ validQuery [([' ', '&'], [['='], ['b']]), (['z'], [['~']])] ∧
    (∃ req,
      ((Do (fun _ => (none, none)) "GET" "http://h/x" []
          (WithQuery [([' ', '&'], [['='], ['b']]), (['z'], [['~']])] NewRequest)).2.1).request
        = some req ∧
      req.rawQuery = urlValuesEncode [([' ', '&'], [['='], ['b']]), (['z'], [['~']])] ∧
      parseQuery req.rawQuery = ([([' ', '&'], [['='], ['b']]), (['z'], [['~']])], none)) :=
  ⟨rfl, by decide,
   c7_query_roundtrip [([' ', '&'], [['='], ['b']]), (['z'], [['~']])]
     (fun _ => (none, none)) "http://h/x" [] NewRequest rfl (by decide)⟩

end GoWww
